import Mathlib

/-!
Verification of the chunked multi-process aggregation pipeline and the
instance-catalog post-processing fixer of `sims_GCRCatSimInterface`.

Part 1 models `SneSimulator.calculate_sn_magnitudes` and its worker
`_calculate_batch_of_sn` (TruthCatalogLC.py): the input array is cut in
slices `[i_start, i_start + d_sne)`, each worker stores its partial matrix
in a shared dict under the tag `i_start`, and the dispatcher rebuilds the
full `(n_objects, n_epochs)` matrix by reading the dict back slice by
slice.  The per-object photometry is kept abstract (a function from the
object's parameters to its row of magnitudes), since the claims are about
dispatch and aggregation, not the SED physics.
-/

/-- `n_threads` in `SneSimulator.calculate_sn_magnitudes`. -/
def n_threads : Nat := 12

/-- The sub-batch size `d_sne = max(12, len(sn_truth_params)//(n_threads-1))`. -/
def d_sne (n : Nat) : Nat := max 12 (n / (n_threads - 1))

/-- Python `range(0, n, d)`: the starting offsets `i_start` of the dispatched
sub-batches. -/
def batchStarts (n d : Nat) : List Nat :=
  (List.range ((n + d - 1) / d)).map (fun i => i * d)

/-- Number of rows selected by `slice(i_start, i_start + d)` on a length-`n`
array (numpy clamps the upper bound). -/
def sliceLen (n s d : Nat) : Nat := min d (n - s)

/-- The sub-batch `sn_truth_params[i_start : i_start + d]`. -/
def subBatch (objs : List α) (s d : Nat) : List α := (objs.drop s).take d

/-- One worker invocation `_calculate_batch_of_sn`: it computes one row of
magnitudes per object of its sub-batch and stores the matrix under its tag
`i_start`. -/
def workerMatrix (compute : α → List γ) (objs : List α) (s d : Nat) :
    Nat × List (List γ) :=
  (s, (subBatch objs s d).map compute)

/-- The tagged partial results of all dispatched workers, in dispatch order. -/
def runWorkers (compute : α → List γ) (objs : List α) (d : Nat) :
    List (Nat × List (List γ)) :=
  (batchStarts objs.length d).map (fun s => workerMatrix compute objs s d)

/-- numpy slice assignment `mags[i_start:i_end] = m` for a slice of `k` rows:
it succeeds when the row counts agree, silently broadcasts a single row
across the whole slice, and raises (`none`) on any other row count. -/
def assignRows (k : Nat) (m : List (List γ)) : Option (List (List γ)) :=
  if m.length = k then some m
  else if m.length = 1 then some (List.replicate k m.headI)
  else none

/-- The aggregation loop of `calculate_sn_magnitudes` (lines 106-112 of
TruthCatalogLC.py) over a list of slice starts: for each dispatched
`i_start`, read `out_dict[i_start]` (`none` models the `KeyError` when a
worker died before storing its result) and fill the corresponding slice. -/
def aggGo (res : List (Nat × List (List γ))) (n d : Nat) :
    List Nat → Option (List (List γ))
  | [] => some []
  | s :: rest =>
    match res.lookup s with
    | none => none
    | some m =>
      match assignRows (sliceLen n s d) m with
      | none => none
      | some rows =>
        match aggGo res n d rest with
        | none => none
        | some acc => some (rows ++ acc)

/-- Aggregation of the shared result dict `res` into the final
`(n, n_epochs)` matrix. -/
def aggregate_sn (n d : Nat) (res : List (Nat × List (List γ))) :
    Option (List (List γ)) :=
  aggGo res n d (batchStarts n d)

/-- `calculate_sn_magnitudes`: dispatch the sub-batches, run the workers and
aggregate their tagged results. -/
def calculate_sn_magnitudes (compute : α → List γ) (objs : List α) :
    Option (List (List γ)) :=
  aggregate_sn objs.length (d_sne objs.length)
    (runWorkers compute objs (d_sne objs.length))

/-!
Part 2 models `write_results` (GalaxyTruthModule.py, lines 150-211).  The
dispatcher fills `position_dict[proc.pid]` for every launched chunk, while
each worker fills `mag_dict[pid]`; `write_results` asserts
`len(mag_dict) == len(position_dict)`, looks up `position_dict[k]` for every
key of `mag_dict` (a missing key raises `KeyError`), asserts
`len(mm) == len(pp['ra'])`, and keeps the rows whose first magnitude is not
NaN (the `validMag` predicate below).  `none` models a raised
`AssertionError`/`KeyError`.
-/

def write_results_go (validMag : μ → Bool) (position_dict : List (Nat × List π)) :
    List (Nat × List μ) → Option (List (π × μ))
  | [] => some []
  | (pid, mm) :: rest =>
    match position_dict.lookup pid with
    | none => none
    | some pp =>
      if mm.length = pp.length then
        match write_results_go validMag position_dict rest with
        | none => none
        | some acc => some (((pp.zip mm).filter fun r => validMag r.2) ++ acc)
      else none

def write_results (validMag : μ → Bool) (mag_dict : List (Nat × List μ))
    (position_dict : List (Nat × List π)) : Option (List (π × μ)) :=
  if mag_dict.length = position_dict.length then
    write_results_go validMag position_dict mag_dict
  else none

/-!
Part 3 models the catalog post-processing fixer `instance_crawler.py`.  An
instance-catalog object line is reduced to the fields the fixer touches:
the integer token at column 1 (`objId`), the magnitude norm (column 4), the
size parameter (column 13), whether the internal-extinction model token
(column 17) is the literal `none` (`extNone`), the internal A_v/R_v values
(columns 18/19, rational since the fixer only compares and clamps them),
and an opaque tag standing for all remaining, untouched tokens.  Token
re-formatting (`"%.9f" % x` followed by `rstrip('0')`) is modelled as the
identity on values; theorem `flux_conservation` accounts for the formatting
error explicitly via perturbation hypotheses.
-/

structure Entry where
  objId : Nat
  magnorm : ℝ
  size : ℝ
  extNone : Bool
  av : ℚ
  rv : ℚ
  rest : Nat

/-- `int(tokens[1]) >> 10`: the host-galaxy identity key shared across
components. -/
def hostId (e : Entry) : Nat := e.objId >>> 10

/-- `np.clip(x, lo, hi)`. -/
def npClip (x lo hi : ℚ) : ℚ := min (max x lo) hi

/-- `apply_extinction_correction` (instance_crawler.py, lines 77-109).
Returns the `corrected` flag and the updated entry; tokens 18/19 are only
rewritten when `corrected` is set. -/
def apply_extinction_correction (e : Entry) : Bool × Entry :=
  let internal_av : ℚ := if e.extNone then 0 else e.av
  let internal_rv : ℚ := if e.extNone then 0 else e.rv
  if internal_rv < 1/10 then
    (true, { e with av := npClip internal_av 0 1, rv := 1/10 })
  else if internal_rv < 1 then
    if 1 < internal_av then
      (true, { e with av := npClip internal_av 0 1, rv := internal_rv })
    else
      (false, e)
  else
    (false, e)

/-- The corrected entry written out for a skipped (or matched) disk line. -/
def corrEntry (e : Entry) : Entry := (apply_extinction_correction e).2

/-- `total_flux = 10**(-magnorm_disk/2.5) + 10**(-magnorm_knots/2.5)`. -/
noncomputable def total_flux (magnorm_disk magnorm_knots : ℝ) : ℝ :=
  (10 : ℝ) ^ (-magnorm_disk / 2.5) + (10 : ℝ) ^ (-magnorm_knots / 2.5)

/-- `knots_flux_ratio` before damping: the knots share of the total flux. -/
noncomputable def knotsFluxFrac0 (magnorm_disk magnorm_knots : ℝ) : ℝ :=
  (10 : ℝ) ^ (-magnorm_knots / 2.5) / total_flux magnorm_disk magnorm_knots

/-- The smooth damping factor `0.5*(1 - np.tanh(np.log(size/1.5)))`. -/
noncomputable def sizeDamping (size : ℝ) : ℝ :=
  0.5 * (1 - Real.tanh (Real.log (size / 1.5)))

/-- The damped knots flux fraction applied to the matched pair. -/
noncomputable def knotsFluxFrac (magnorm_disk magnorm_knots size : ℝ) : ℝ :=
  knotsFluxFrac0 magnorm_disk magnorm_knots * sizeDamping size

/-- `magnorm_disk = -2.5*np.log10((1-knots_flux_ratio)*total_flux)`. -/
noncomputable def new_magnorm_disk (magnorm_disk magnorm_knots size : ℝ) : ℝ :=
  -2.5 * Real.logb 10
    ((1 - knotsFluxFrac magnorm_disk magnorm_knots size)
      * total_flux magnorm_disk magnorm_knots)

/-- `magnorm_knots = -2.5*np.log10(knots_flux_ratio*total_flux)`. -/
noncomputable def new_magnorm_knots (magnorm_disk magnorm_knots size : ℝ) : ℝ :=
  -2.5 * Real.logb 10
    (knotsFluxFrac magnorm_disk magnorm_knots size
      * total_flux magnorm_disk magnorm_knots)

/-- Lines 157-181: update the matched (post-correction) disk entry and the
knots entry; the knots entry keeps all its own tokens except the magnitude
norm, and its extinction tokens 18/19 are overwritten with the disk's. -/
noncomputable def split_pair (d k : Entry) : Entry × Entry :=
  ({ d with magnorm := new_magnorm_disk d.magnorm k.magnorm d.size },
   { k with magnorm := new_magnorm_knots d.magnorm k.magnorm d.size,
            av := d.av, rv := d.rv })

/-- The inner `for line_disk in input_disk` scan (lines 135-151): read disk
entries, apply the extinction correction to each, write the non-matching
ones through, and stop at the first entry whose host id equals `idk`.
Returns the written-through entries, the corrected matched entry, and the
part of the disk catalog that was not read; `none` models exhausting the
catalog without a match. -/
def scanDisks (idk : Nat) : List Entry → Option (List Entry × Entry × List Entry)
  | [] => none
  | d :: rem =>
    if hostId d = idk then some ([], corrEntry d, rem)
    else
      match scanDisks idk rem with
      | none => none
      | some (skipped, m, rest2) => some (corrEntry d :: skipped, m, rest2)

/-- The outer `for line_knots in input_knots` loop of `fix_disk_knots`.
Accumulates the disk and knots output catalogs; `none` models
`exit(-1)` after "ERROR: object ids do not match". -/
noncomputable def fdkLoop : List Entry → List Entry → Option (List Entry × List Entry)
  | [], _disks => some ([], [])
  | k :: ks, disks =>
    match scanDisks (hostId k) disks with
    | none => none
    | some (skipped, m, rem) =>
      match fdkLoop ks rem with
      | none => none
      | some (outD, outK) =>
        some (skipped ++ (split_pair m k).1 :: outD, (split_pair m k).2 :: outK)

/-- `fix_disk_knots` on parsed catalogs: returns the pair of output
catalogs (disk, knots), or `none` when the run aborts. -/
noncomputable def fix_disk_knots (disks knots : List Entry) :
    Option (List Entry × List Entry) :=
  fdkLoop knots disks

/-- A sample catalog entry with host id `i >>> 10`. -/
noncomputable def mkEntry (i : Nat) (a r : ℚ) : Entry :=
  { objId := i, magnorm := 0, size := 1.5, extNone := false, av := a, rv := r, rest := i }

/-! Concrete catalog entries for the 5-disk/3-knots scenario: disks with
host ids 1, 2, 3 (matched), 7 and 9 (unmatched), knots with host ids
1, 2, 3 (sub-component ids share the high bits of their hosts). -/

noncomputable def exD1 : Entry := mkEntry 1024 0 2

noncomputable def exD2 : Entry := mkEntry 2048 0 2

noncomputable def exD3 : Entry := mkEntry 3072 0 2

noncomputable def exU1 : Entry := mkEntry 7168 0 2

noncomputable def exU2 : Entry := mkEntry 9216 0 2

noncomputable def exK1 : Entry := mkEntry 1025 1 3

noncomputable def exK2 : Entry := mkEntry 2049 1 3

noncomputable def exK3 : Entry := mkEntry 3073 1 3

/-!
Part 4 models the per-pointing insertion of `light_curves` rows in
`write_sprinkled_lc` (TruthCatalogLC.py).  For one pointing, `are_on_chip`
is the boolean result of `_actually_on_chip` over the chunk's objects; AGN
rows are inserted for `np.where(are_on_chip)` (lines 397-415), SNe rows for
`np.where(np.logical_and(np.isfinite(sn_mags[:,i_time]), are_on_chip))`
(lines 449-468).  Magnitudes are abstract values tagged by the finiteness
mask `finite_mask` (row `i` of `np.isfinite(sn_mags[:, i_time])`).
-/

/-- `np.where(are_on_chip)[0]`: the indices of the on-detector objects. -/
def valid_agn (are_on_chip : List Bool) : List Nat :=
  (List.range are_on_chip.length).filter (fun i => are_on_chip.getD i false)

/-- `np.where(np.logical_and(isfinite(...), are_on_chip))[0]`. -/
def valid_sn (finite_mask are_on_chip : List Bool) : List Nat :=
  (List.range are_on_chip.length).filter
    (fun i => finite_mask.getD i false && are_on_chip.getD i false)

/-- The AGN `light_curves` rows inserted for one pointing:
`(uniqueId, obshistid, quiescent+dmag)` for every on-chip index. -/
def agn_lc_rows {M : Type} (uniqueId : List Nat) (obshistid : Nat)
    (mag : Nat → M) (are_on_chip : List Bool) : List (Nat × Nat × M) :=
  (valid_agn are_on_chip).map (fun i => (uniqueId.getD i 0, obshistid, mag i))

/-- The SNe `light_curves` rows inserted for one pointing. -/
def sn_lc_rows {M : Type} (uniqueId : List Nat) (obshistid : Nat)
    (mag : Nat → M) (finite_mask are_on_chip : List Bool) :
    List (Nat × Nat × M) :=
  (valid_sn finite_mask are_on_chip).map
    (fun i => (uniqueId.getD i 0, obshistid, mag i))

/-! Basic facts about the dispatch arithmetic. -/

theorem d_sne_pos (n : Nat) : 0 < d_sne n :=
  lt_of_lt_of_le (by norm_num) (le_max_left _ _)

theorem batchStarts_nodup (n d : Nat) (hd : 0 < d) : (batchStarts n d).Nodup := by
  refine List.Nodup.map ?_ (List.nodup_range _)
  intro a b hab
  exact Nat.eq_of_mul_eq_mul_right hd hab

theorem batchStarts_lt (n d s : Nat) (hd : 0 < d) (hs : s ∈ batchStarts n d) :
    s < n := by
  rcases List.mem_map.mp hs with ⟨i, hi, rfl⟩
  rw [List.mem_range] at hi
  by_contra hge
  push_neg at hge
  have h3 : (d - 1) / d = 0 := Nat.div_eq_of_lt (by omega)
  have h4 : (n + d - 1) / d ≤ (d - 1) / d + i := by
    calc (n + d - 1) / d ≤ ((d - 1) + i * d) / d := Nat.div_le_div_right (by omega)
    _ = (d - 1) / d + i := Nat.add_mul_div_right _ _ hd
  omega

theorem length_subBatch (objs : List α) (s d : Nat) :
    (subBatch objs s d).length = sliceLen objs.length s d := by
  simp [subBatch, sliceLen]

/-- The dispatched slices tile the input exactly. -/
theorem chunks_join (d : Nat) :
    ∀ (k : Nat) (l : List α), l.length ≤ k * d →
      ((List.range k).map (fun i => (l.drop (i * d)).take d)).flatten = l := by
  intro k
  induction k with
  | zero =>
    intro l hl
    have h0 : l.length = 0 := by simpa using hl
    simp [List.length_eq_zero.mp h0]
  | succ k ih =>
    intro l hl
    rw [List.range_succ_eq_map]
    rw [List.map_cons, List.map_map, List.flatten_cons]
    have hcomp : ((fun i => (l.drop (i * d)).take d) ∘ Nat.succ)
        = fun i => ((l.drop d).drop (i * d)).take d := by
      funext i
      show (l.drop (Nat.succ i * d)).take d = ((l.drop d).drop (i * d)).take d
      rw [List.drop_drop, Nat.succ_mul, Nat.add_comm (i * d) d]
    have hmul : (k + 1) * d = k * d + d := Nat.succ_mul k d
    rw [hmul] at hl
    rw [hcomp, ih (l.drop d) (by simp only [List.length_drop]; omega)]
    simp only [Nat.zero_mul, List.drop_zero]
    exact List.take_append_drop d l

theorem batchStarts_cover (n d : Nat) (hd : 0 < d) :
    n ≤ ((n + d - 1) / d) * d := by
  rcases Nat.eq_zero_or_pos n with h0 | h0
  · simp [h0]
  · have h1 : n + d - 1 = (n - 1) + d := by omega
    have h2 : ((n - 1) + d) / d = (n - 1) / d + 1 := Nat.add_div_right _ hd
    have key : n - 1 < (n - 1) / d * d + d := Nat.lt_div_mul_add hd
    rw [h1, h2, Nat.succ_mul]
    omega

/-! Lookup in a tagged result list: the shared dict is keyed by `i_start`;
with distinct tags, any completion order gives the same lookups. -/

theorem lookup_eq_some_of_nodup_mem {β : Type u} (l : List (Nat × β)) (a : Nat)
    (b : β) (hnd : (l.map Prod.fst).Nodup) (hmem : (a, b) ∈ l) :
    l.lookup a = some b := by
  induction l with
  | nil => cases hmem
  | cons hd tl ih =>
    rcases hd with ⟨a', b'⟩
    simp only [List.map_cons, List.nodup_cons] at hnd
    rcases List.mem_cons.mp hmem with heq | htl
    · cases heq
      simp [List.lookup]
    · have hne : a' ≠ a := by
        intro h
        exact hnd.1 (h ▸ List.mem_map_of_mem Prod.fst htl)
      have hba : (a == a') = false := beq_false_of_ne (Ne.symm hne)
      simp only [List.lookup, hba]
      exact ih hnd.2 htl

theorem runWorkers_keys (compute : α → List γ) (objs : List α) (d : Nat) :
    (runWorkers compute objs d).map Prod.fst = batchStarts objs.length d := by
  simp [runWorkers, workerMatrix, List.map_map, Function.comp_def]

theorem lookup_runWorkers (compute : α → List γ) (objs : List α) (d s : Nat)
    (hd : 0 < d) (hs : s ∈ batchStarts objs.length d) :
    (runWorkers compute objs d).lookup s
      = some ((subBatch objs s d).map compute) := by
  apply lookup_eq_some_of_nodup_mem
  · rw [runWorkers_keys]
    exact batchStarts_nodup _ _ hd
  · exact List.mem_map_of_mem (fun s => workerMatrix compute objs s d) hs

theorem lookup_of_perm_runWorkers (compute : α → List γ) (objs : List α)
    (d s : Nat) (res : List (Nat × List (List γ))) (hd : 0 < d)
    (hperm : res.Perm (runWorkers compute objs d))
    (hs : s ∈ batchStarts objs.length d) :
    res.lookup s = some ((subBatch objs s d).map compute) := by
  apply lookup_eq_some_of_nodup_mem
  · have h1 : (res.map Prod.fst).Perm
        ((runWorkers compute objs d).map Prod.fst) := hperm.map _
    rw [h1.nodup_iff, runWorkers_keys]
    exact batchStarts_nodup _ _ hd
  · have hmem : (s, (subBatch objs s d).map compute) ∈ runWorkers compute objs d :=
      List.mem_map_of_mem (fun s => workerMatrix compute objs s d) hs
    exact hperm.mem_iff.mpr hmem

/-- Aggregation over a list of starts, when every start's tagged result is
present and has exactly the slice's row count. -/
theorem aggGo_spec (res : List (Nat × List (List γ))) (n d : Nat)
    (g : Nat → List (List γ)) :
    ∀ starts : List Nat,
      (∀ s ∈ starts, res.lookup s = some (g s) ∧ (g s).length = sliceLen n s d) →
      aggGo res n d starts = some ((starts.map g).flatten) := by
  intro starts
  induction starts with
  | nil => intro _; rfl
  | cons s rest ih =>
    intro h
    have hs := h s (List.mem_cons_self s rest)
    have hrest := fun t ht => h t (List.mem_cons_of_mem s ht)
    have hassign : assignRows (sliceLen n s d) (g s) = some (g s) := by
      rw [assignRows, if_pos hs.2]
    simp only [aggGo, hs.1, hassign, ih hrest]
    simp [List.flatten_cons]

theorem subBatches_flatten (objs : List α) (d : Nat) (hd : 0 < d) :
    ((batchStarts objs.length d).map (fun s => subBatch objs s d)).flatten
      = objs := by
  rw [batchStarts, List.map_map]
  have hfun : ((fun s => subBatch objs s d) ∘ fun i => i * d)
      = fun i => (objs.drop (i * d)).take d := rfl
  rw [hfun]
  exact chunks_join d _ objs (batchStarts_cover objs.length d hd)

/-- C1: every sub-batch is dispatched as the slice `[i_start, i_start + d)`,
each worker stores its `(batch_size, n_epochs)` partial matrix under the tag
`i_start`, and the matrix rebuilt by `calculate_sn_magnitudes` from the
shared dict -- presented here in an arbitrary completion order `res` -- has
shape `(n_objects, n_epochs)` and row `i` equal to the row computed for
input object `i`, independently of the order in which workers complete. -/
theorem sn_aggregation_correct (objs : List α) (compute : α → List γ)
    (nE : Nat) (res : List (Nat × List (List γ)))
    (hrows : ∀ o ∈ objs, (compute o).length = nE)
    (hperm : res.Perm (runWorkers compute objs (d_sne objs.length))) :
    aggregate_sn objs.length (d_sne objs.length) res = some (objs.map compute)
    ∧ (objs.map compute).length = objs.length
    ∧ (∀ row ∈ objs.map compute, row.length = nE)
    ∧ calculate_sn_magnitudes compute objs = some (objs.map compute) := by
  have hd : 0 < d_sne objs.length := d_sne_pos objs.length
  have hmain : ∀ r : List (Nat × List (List γ)),
      r.Perm (runWorkers compute objs (d_sne objs.length)) →
      aggregate_sn objs.length (d_sne objs.length) r
        = some (objs.map compute) := by
    intro r hr
    have hlook : ∀ s ∈ batchStarts objs.length (d_sne objs.length),
        r.lookup s = some ((subBatch objs s (d_sne objs.length)).map compute)
        ∧ ((subBatch objs s (d_sne objs.length)).map compute).length
            = sliceLen objs.length s (d_sne objs.length) := by
      intro s hs
      exact ⟨lookup_of_perm_runWorkers compute objs _ s r hd hr hs,
        by rw [List.length_map, length_subBatch]⟩
    rw [aggregate_sn, aggGo_spec r objs.length (d_sne objs.length)
      (fun s => (subBatch objs s (d_sne objs.length)).map compute) _ hlook]
    congr 1
    have h2 : ((batchStarts objs.length (d_sne objs.length)).map
          fun s => (subBatch objs s (d_sne objs.length)).map compute)
        = ((batchStarts objs.length (d_sne objs.length)).map
            fun s => subBatch objs s (d_sne objs.length)).map
              (List.map compute) := by
      rw [List.map_map]
      rfl
    rw [h2, ← List.map_flatten, subBatches_flatten objs _ hd]
  refine ⟨hmain res hperm, List.length_map _ _, ?_, hmain _ (List.Perm.refl _)⟩
  intro row hrow
  rcases List.mem_map.mp hrow with ⟨o, ho, rfl⟩
  exact hrows o ho

theorem sn_aggregation_correct_witness :
    aggregate_sn 3 (d_sne 3)
        ((runWorkers (fun o => [o, o + 1]) [10, 20, 30] (d_sne 3)).reverse)
      = some ([10, 20, 30].map (fun o => [o, o + 1]))
    ∧ ([10, 20, 30].map (fun o : Nat => [o, o + 1])).length = 3
    ∧ (∀ row ∈ [10, 20, 30].map (fun o : Nat => [o, o + 1]), row.length = 2)
    ∧ calculate_sn_magnitudes (fun o : Nat => [o, o + 1]) [10, 20, 30]
        = some ([10, 20, 30].map (fun o => [o, o + 1])) := by
  have h := sn_aggregation_correct [10, 20, 30] (fun o => [o, o + 1]) 2
    ((runWorkers (fun o => [o, o + 1]) [10, 20, 30] (d_sne 3)).reverse)
    (by decide) (List.reverse_perm _)
  exact h

/-! Error conditions of the two aggregators. -/

theorem aggGo_none_of_lookup_none (res : List (Nat × List (List γ)))
    (n d s : Nat) :
    ∀ starts : List Nat, s ∈ starts → res.lookup s = none →
      aggGo res n d starts = none := by
  intro starts
  induction starts with
  | nil => intro h; cases h
  | cons t rest ih =>
    intro hs hnone
    rcases List.mem_cons.mp hs with rfl | hmem
    · simp only [aggGo, hnone]
    · cases htl : res.lookup t with
      | none => simp only [aggGo, htl]
      | some m =>
        cases h2 : assignRows (sliceLen n t d) m with
        | none => simp only [aggGo, htl, h2]
        | some rows => simp only [aggGo, htl, h2, ih hmem hnone]

theorem aggGo_none_of_bad_count (res : List (Nat × List (List γ)))
    (n d s : Nat) (m : List (List γ)) :
    ∀ starts : List Nat, s ∈ starts → res.lookup s = some m →
      m.length ≠ sliceLen n s d → m.length ≠ 1 →
      aggGo res n d starts = none := by
  intro starts
  induction starts with
  | nil => intro h; cases h
  | cons t rest ih =>
    intro hs hsome hk h1
    rcases List.mem_cons.mp hs with rfl | hmem
    · have hassign : assignRows (sliceLen n s d) m = none := by
        rw [assignRows, if_neg hk, if_neg h1]
      simp only [aggGo, hsome, hassign]
    · cases htl : res.lookup t with
      | none => simp only [aggGo, htl]
      | some mt =>
        cases h2 : assignRows (sliceLen n t d) mt with
        | none => simp only [aggGo, htl, h2]
        | some rows => simp only [aggGo, htl, h2, ih hmem hsome hk h1]

theorem write_results_go_none_of_bad_count (validMag : μ → Bool)
    (position_dict : List (Nat × List π)) (pid : Nat) (mm : List μ)
    (pp : List π) :
    ∀ mag_dict : List (Nat × List μ), (pid, mm) ∈ mag_dict →
      position_dict.lookup pid = some pp → mm.length ≠ pp.length →
      write_results_go validMag position_dict mag_dict = none := by
  intro mag_dict
  induction mag_dict with
  | nil => intro h; cases h
  | cons hd rest ih =>
    rcases hd with ⟨pid', mm'⟩
    intro hmem hpp hne
    rcases List.mem_cons.mp hmem with heq | htl
    · cases heq
      simp only [write_results_go, hpp]
      rw [if_neg hne]
    · cases hlk : position_dict.lookup pid' with
      | none => simp only [write_results_go, hlk]
      | some pp' =>
        by_cases hlen : mm'.length = pp'.length
        · simp only [write_results_go, hlk]
          rw [if_pos hlen, ih htl hpp hne]
        · simp only [write_results_go, hlk]
          rw [if_neg hlen]

/-- C2 (amended): a worker that dies before storing its tagged result makes
`calculate_sn_magnitudes`' aggregation raise (`KeyError`, first conjunct);
a partial result whose object count differs from its sub-batch's size and is
not exactly one row makes it raise (numpy shape error, second conjunct); in
`write_results` a missing partial result is caught by the
`len(mag_dict) == len(position_dict)` assertion (third conjunct) and any
object-count mismatch by the `len(mm) == len(pp['ra'])` assertion (fourth
conjunct).  The single-row exception is forced by numpy broadcasting, see
the counterexample. -/
theorem aggregation_error_conditions :
    (∀ (γ : Type) (res : List (Nat × List (List γ))) (n d s : Nat),
        s ∈ batchStarts n d → res.lookup s = none →
        aggregate_sn n d res = none)
    ∧ (∀ (γ : Type) (res : List (Nat × List (List γ))) (n d s : Nat)
          (m : List (List γ)),
        s ∈ batchStarts n d → res.lookup s = some m →
        m.length ≠ sliceLen n s d → m.length ≠ 1 →
        aggregate_sn n d res = none)
    ∧ (∀ (μ π : Type) (validMag : μ → Bool) (mag_dict : List (Nat × List μ))
          (position_dict : List (Nat × List π)),
        mag_dict.length ≠ position_dict.length →
        write_results validMag mag_dict position_dict = none)
    ∧ (∀ (μ π : Type) (validMag : μ → Bool) (mag_dict : List (Nat × List μ))
          (position_dict : List (Nat × List π)) (pid : Nat) (mm : List μ)
          (pp : List π),
        (pid, mm) ∈ mag_dict → position_dict.lookup pid = some pp →
        mm.length ≠ pp.length →
        write_results validMag mag_dict position_dict = none) := by
  refine ⟨?_, ?_, ?_, ?_⟩
  · intro γ res n d s hs hnone
    exact aggGo_none_of_lookup_none res n d s (batchStarts n d) hs hnone
  · intro γ res n d s m hs hsome hk h1
    exact aggGo_none_of_bad_count res n d s m (batchStarts n d) hs hsome hk h1
  · intro μ π validMag mag_dict position_dict hne
    rw [write_results, if_neg hne]
  · intro μ π validMag mag_dict position_dict pid mm pp hmem hlk hne
    rw [write_results]
    by_cases hlen : mag_dict.length = position_dict.length
    · rw [if_pos hlen]
      exact write_results_go_none_of_bad_count validMag position_dict pid mm pp
        mag_dict hmem hlk hne
    · rw [if_neg hlen]

theorem aggregation_error_conditions_witness :
    aggregate_sn 2 12 ([] : List (Nat × List (List Nat))) = none
    ∧ aggregate_sn 2 12 [(0, [[1], [2], [3]])] = (none : Option (List (List Nat)))
    ∧ write_results (fun _ : Nat => true) [(1, [5])]
        ([] : List (Nat × List Nat)) = none
    ∧ write_results (fun _ : Nat => true) [(1, [5, 6])] [(1, [7])] = none := by
  refine ⟨?_, ?_, ?_, ?_⟩
  · exact aggregation_error_conditions.1 Nat [] 2 12 0 (by decide) rfl
  · exact aggregation_error_conditions.2.1 Nat [(0, [[1], [2], [3]])] 2 12 0
      [[1], [2], [3]] (by decide) rfl (by decide) (by decide)
  · exact aggregation_error_conditions.2.2.1 Nat Nat (fun _ => true)
      [(1, [5])] [] (by decide)
  · exact aggregation_error_conditions.2.2.2 Nat Nat (fun _ => true)
      [(1, [5, 6])] [(1, [7])] 1 [5, 6] [7] (by decide) rfl (by decide)

/-- C2 counterexample: a partial result with exactly one row for a two-row
sub-batch does not raise: `mags[selection] = out_dict[i_start]` broadcasts
the row silently across the whole slice, so the run completes with
duplicated rows instead of aborting. -/
theorem sn_broadcast_counterexample :
    aggregate_sn 2 (d_sne 2) [(0, [[5]])] = some [[(5 : Nat)], [5]]
    ∧ d_sne 2 = 12
    ∧ batchStarts 2 (d_sne 2) = [0]
    ∧ sliceLen 2 0 (d_sne 2) = 2
    ∧ [[(5 : Nat)]].length ≠ sliceLen 2 0 (d_sne 2) := by
  refine ⟨?_, by decide, by decide, by decide, by decide⟩
  decide

/-! Structural facts about the forward scan. -/

theorem scanDisks_eq_none (idk : Nat) :
    ∀ ds : List Entry, idk ∉ ds.map hostId → scanDisks idk ds = none := by
  intro ds
  induction ds with
  | nil => intro _; rfl
  | cons d rem ih =>
    intro hmiss
    simp only [List.map_cons, List.mem_cons] at hmiss
    push_neg at hmiss
    have hne : ¬ hostId d = idk := fun h => hmiss.1 h.symm
    simp only [scanDisks, if_neg hne, ih hmiss.2]

theorem scanDisks_some_mem (idk : Nat) :
    ∀ ds : List Entry, ∀ t, scanDisks idk ds = some t →
      idk ∈ ds.map hostId := by
  intro ds
  induction ds with
  | nil => intro t h; cases h
  | cons d rem ih =>
    intro t h
    by_cases hd : hostId d = idk
    · simp [List.map_cons, hd]
    · simp only [scanDisks, if_neg hd] at h
      cases hrec : scanDisks idk rem with
      | none => rw [hrec] at h; cases h
      | some t2 =>
        simp only [List.map_cons, List.mem_cons]
        exact Or.inr (ih t2 hrec)

theorem scanDisks_rem_mem (idk : Nat) :
    ∀ ds skipped m rem, scanDisks idk ds = some (skipped, m, rem) →
      ∀ x ∈ rem, x ∈ ds := by
  intro ds
  induction ds with
  | nil => intro skipped m rem h; cases h
  | cons d tail ih =>
    intro skipped m rem h x hx
    by_cases hd : hostId d = idk
    · simp only [scanDisks, if_pos hd] at h
      cases h
      exact List.mem_cons_of_mem d hx
    · simp only [scanDisks, if_neg hd] at h
      cases hrec : scanDisks idk tail with
      | none => simp only [hrec] at h; cases h
      | some t2 =>
        rcases t2 with ⟨s2, m2, r2⟩
        simp only [hrec] at h
        cases h
        exact List.mem_cons_of_mem d (ih s2 m rem hrec x hx)

theorem scanDisks_append (idk : Nat) :
    ∀ ds skipped m rem (extra : List Entry),
      scanDisks idk ds = some (skipped, m, rem) →
      scanDisks idk (ds ++ extra) = some (skipped, m, rem ++ extra) := by
  intro ds
  induction ds with
  | nil => intro skipped m rem extra h; cases h
  | cons d tail ih =>
    intro skipped m rem extra h
    by_cases hd : hostId d = idk
    · simp only [scanDisks, if_pos hd] at h
      cases h
      simp only [List.cons_append, scanDisks, if_pos hd, List.append_eq]
    · simp only [scanDisks, if_neg hd] at h
      cases hrec : scanDisks idk tail with
      | none => simp only [hrec] at h; cases h
      | some t2 =>
        rcases t2 with ⟨s2, m2, r2⟩
        simp only [hrec] at h
        cases h
        simp only [List.cons_append, scanDisks, if_neg hd, List.append_eq,
          ih s2 m rem extra hrec]

/-- The scan over a run of non-matching entries followed by the matching
one: all skipped entries are written through (post-correction) and the
trailing part of the catalog is left unread. -/
theorem scanDisks_run (idk : Nat) :
    ∀ (pre : List Entry) (d0 : Entry) (rest : List Entry),
      (∀ e ∈ pre, hostId e ≠ idk) → hostId d0 = idk →
      scanDisks idk (pre ++ d0 :: rest)
        = some (pre.map corrEntry, corrEntry d0, rest) := by
  intro pre
  induction pre with
  | nil =>
    intro d0 rest _ hd0
    simp only [List.nil_append, scanDisks, if_pos hd0, List.map_nil]
  | cons p ptail ih =>
    intro d0 rest hpre hd0
    have hp : ¬ hostId p = idk := hpre p (List.mem_cons_self p ptail)
    have htail := ih d0 rest (fun e he => hpre e (List.mem_cons_of_mem p he)) hd0
    simp only [List.cons_append, scanDisks, if_neg hp, List.append_eq, htail,
      List.map_cons]

/-- C6: a knots entry whose identity key matches no disk entry makes the
forward scan exhaust the disk catalog, and `fix_disk_knots` aborts
(`exit(-1)` after the error message, modelled by `none`); the missing match
is never silently ignored. -/
theorem missing_match_aborts (knots : List Entry) (k : Entry) :
    ∀ disks : List Entry, k ∈ knots → hostId k ∉ disks.map hostId →
      fix_disk_knots disks knots = none := by
  induction knots with
  | nil => intro disks hk; cases hk
  | cons k0 ks ih =>
    intro disks hk hmiss
    rcases List.mem_cons.mp hk with rfl | hks
    · have h := scanDisks_eq_none (hostId k) disks hmiss
      rw [fix_disk_knots]
      simp only [fdkLoop, h]
    · rw [fix_disk_knots]
      cases hscan : scanDisks (hostId k0) disks with
      | none => simp only [fdkLoop, hscan]
      | some t =>
        rcases t with ⟨skipped, m, rem⟩
        have hmiss2 : hostId k ∉ rem.map hostId := by
          intro hmem
          rcases List.mem_map.mp hmem with ⟨x, hx, hxid⟩
          exact hmiss (hxid ▸ List.mem_map_of_mem hostId
            (scanDisks_rem_mem (hostId k0) disks skipped m rem hscan x hx))
        have h2 : fdkLoop ks rem = none := ih rem hks hmiss2
        simp only [fdkLoop, hscan, h2]

theorem missing_match_aborts_witness :
    fix_disk_knots [] [mkEntry 2048 0 2] = none := by
  exact missing_match_aborts _ _ [] (List.mem_cons_self _ _) (by simp)

/-- C8: once `fix_disk_knots` completes a run, any disk entries sitting
after the last line the scan consumed are never read: appending them leaves
the outputs unchanged and raises no error -- the trailing entries are
silently omitted from the output disk catalog. -/
theorem trailing_disks_ignored (knots : List Entry) :
    ∀ (disks : List Entry) (r : List Entry × List Entry)
      (extra : List Entry),
      fix_disk_knots disks knots = some r →
      fix_disk_knots (disks ++ extra) knots = some r := by
  induction knots with
  | nil =>
    intro disks r extra h
    simp only [fix_disk_knots, fdkLoop] at h ⊢
    exact h
  | cons k ks ih =>
    intro disks r extra h
    simp only [fix_disk_knots, fdkLoop] at h ⊢
    cases hscan : scanDisks (hostId k) disks with
    | none => simp only [hscan] at h; cases h
    | some t =>
      rcases t with ⟨skipped, m, rem⟩
      simp only [hscan] at h
      cases hrec : fdkLoop ks rem with
      | none => simp only [hrec] at h; cases h
      | some p =>
        simp only [hrec] at h
        rcases p with ⟨outD, outK⟩
        have hscan2 := scanDisks_append (hostId k) disks skipped m rem extra hscan
        have hrec2 : fdkLoop ks (rem ++ extra) = some (outD, outK) :=
          ih rem (outD, outK) extra hrec
        simp only [hscan2, hrec2]
        exact h

theorem trailing_disks_ignored_witness :
    fix_disk_knots ([] ++ [mkEntry 1024 0 2]) [] = some ([], []) :=
  trailing_disks_ignored [] [] ([], []) _ rfl

/-- C9: for a matched pair, the knots output entry is the knots input entry
with only its magnitude norm recomputed and its extinction tokens 18/19
overwritten by the matched disk entry's post-correction values; the knots
entry itself never goes through `apply_extinction_correction`. -/
theorem knots_extinction_from_disk (pre : List Entry) (d0 k : Entry)
    (rest ks : List Entry)
    (hpre : ∀ e ∈ pre, hostId e ≠ hostId k)
    (hmatch : hostId d0 = hostId k) :
    fix_disk_knots (pre ++ d0 :: rest) (k :: ks)
      = Option.map (fun p : List Entry × List Entry =>
          (pre.map corrEntry ++ (split_pair (corrEntry d0) k).1 :: p.1,
           { k with
               magnorm := new_magnorm_knots (corrEntry d0).magnorm k.magnorm
                 (corrEntry d0).size,
               av := (corrEntry d0).av,
               rv := (corrEntry d0).rv } :: p.2))
        (fdkLoop ks rest) := by
  have hscan := scanDisks_run (hostId k) pre d0 rest hpre hmatch
  rw [fix_disk_knots]
  cases hrec : fdkLoop ks rest with
  | none => simp only [fdkLoop, hscan, hrec, Option.map_none']
  | some p =>
    rcases p with ⟨outD, outK⟩
    simp only [fdkLoop, hscan, hrec, Option.map_some']
    rfl

theorem knots_extinction_from_disk_witness :
    fix_disk_knots ([] ++ mkEntry 1024 0 2 :: []) (mkEntry 1025 3 4 :: [])
      = Option.map (fun p : List Entry × List Entry =>
          (([] : List Entry).map corrEntry
            ++ (split_pair (corrEntry (mkEntry 1024 0 2)) (mkEntry 1025 3 4)).1
              :: p.1,
           { mkEntry 1025 3 4 with
               magnorm := new_magnorm_knots (corrEntry (mkEntry 1024 0 2)).magnorm
                 (mkEntry 1025 3 4).magnorm (corrEntry (mkEntry 1024 0 2)).size,
               av := (corrEntry (mkEntry 1024 0 2)).av,
               rv := (corrEntry (mkEntry 1024 0 2)).rv } :: p.2))
        (fdkLoop [] []) :=
  knots_extinction_from_disk [] (mkEntry 1024 0 2) (mkEntry 1025 3 4) [] []
    (by simp) (by decide)

/-- C4 (amended): in the 5-disk/3-knots scenario with 3 matching identity
keys, when every unmatched disk row sits before the final matched disk row,
the fixer writes exactly 5 disk rows and 3 knots rows, passing the
unmatched rows through with only the extinction-parameter correction
applied.  (Unmatched disk rows placed after the final matched row are
dropped instead, see the counterexample.) -/
theorem five_three_scenario (p1 p2 p3 : List Entry) (d1 d2 d3 k1 k2 k3 : Entry)
    (hn : p1.length + p2.length + p3.length = 2)
    (h1 : hostId d1 = hostId k1) (h2 : hostId d2 = hostId k2)
    (h3 : hostId d3 = hostId k3)
    (hp1 : ∀ e ∈ p1, hostId e ≠ hostId k1)
    (hp2 : ∀ e ∈ p2, hostId e ≠ hostId k2)
    (hp3 : ∀ e ∈ p3, hostId e ≠ hostId k3) :
    fix_disk_knots (p1 ++ d1 :: (p2 ++ d2 :: (p3 ++ [d3]))) [k1, k2, k3]
      = some (p1.map corrEntry ++ (split_pair (corrEntry d1) k1).1
            :: (p2.map corrEntry ++ (split_pair (corrEntry d2) k2).1
              :: (p3.map corrEntry ++ [(split_pair (corrEntry d3) k3).1])),
          [(split_pair (corrEntry d1) k1).2, (split_pair (corrEntry d2) k2).2,
           (split_pair (corrEntry d3) k3).2])
    ∧ (p1.map corrEntry ++ (split_pair (corrEntry d1) k1).1
        :: (p2.map corrEntry ++ (split_pair (corrEntry d2) k2).1
          :: (p3.map corrEntry ++ [(split_pair (corrEntry d3) k3).1]))).length = 5
    ∧ [(split_pair (corrEntry d1) k1).2, (split_pair (corrEntry d2) k2).2,
       (split_pair (corrEntry d3) k3).2].length = 3 := by
  have hs1 := scanDisks_run (hostId k1) p1 d1 (p2 ++ d2 :: (p3 ++ [d3])) hp1 h1
  have hs2 := scanDisks_run (hostId k2) p2 d2 (p3 ++ [d3]) hp2 h2
  have hs3 := scanDisks_run (hostId k3) p3 d3 [] hp3 h3
  refine ⟨?_, ?_, rfl⟩
  · rw [fix_disk_knots]
    simp only [fdkLoop, hs1, hs2, hs3]
  · simp only [List.length_append, List.length_map, List.length_cons,
      List.length_nil]
    omega

theorem five_three_scenario_witness :
    (([exU1].map corrEntry ++ (split_pair (corrEntry exD1) exK1).1
        :: (([] : List Entry).map corrEntry ++ (split_pair (corrEntry exD2) exK2).1
          :: ([exU2].map corrEntry
            ++ [(split_pair (corrEntry exD3) exK3).1]))).length = 5)
    ∧ ([(split_pair (corrEntry exD1) exK1).2, (split_pair (corrEntry exD2) exK2).2,
        (split_pair (corrEntry exD3) exK3).2].length = 3)
    ∧ fix_disk_knots ([exU1] ++ exD1 :: (([] : List Entry)
          ++ exD2 :: ([exU2] ++ [exD3]))) [exK1, exK2, exK3]
        = some ([exU1].map corrEntry ++ (split_pair (corrEntry exD1) exK1).1
            :: (([] : List Entry).map corrEntry ++ (split_pair (corrEntry exD2) exK2).1
              :: ([exU2].map corrEntry
                ++ [(split_pair (corrEntry exD3) exK3).1])),
          [(split_pair (corrEntry exD1) exK1).2, (split_pair (corrEntry exD2) exK2).2,
           (split_pair (corrEntry exD3) exK3).2]) := by
  have h := five_three_scenario [exU1] [] [exU2] exD1 exD2 exD3 exK1 exK2 exK3
    (by decide) (by decide) (by decide) (by decide)
    (by decide) (by decide) (by decide)
  exact ⟨h.2.1, h.2.2, h.1⟩

/-- C4 counterexample: the same 5-disk/3-knots catalogs with exactly 3
matching identity keys, but the 2 unmatched disk rows placed after the last
matched row: the fixer emits only 3 disk rows (and 3 knots rows), the
trailing unmatched rows are dropped, contradicting "5 disk output rows
regardless of where the unmatched disk rows sit". -/
theorem trailing_unmatched_disks_dropped :
    (fix_disk_knots [exD1, exD2, exD3, exU1, exU2] [exK1, exK2, exK3]).map
      (fun r : List Entry × List Entry => (r.1.length, r.2.length))
      = some (3, 3) := by
  have hs1 : scanDisks (hostId exK1) [exD1, exD2, exD3, exU1, exU2]
      = some ([], corrEntry exD1, [exD2, exD3, exU1, exU2]) := by
    simpa using scanDisks_run (hostId exK1) [] exD1 [exD2, exD3, exU1, exU2]
      (by simp) (by decide)
  have hs2 : scanDisks (hostId exK2) [exD2, exD3, exU1, exU2]
      = some ([], corrEntry exD2, [exD3, exU1, exU2]) := by
    simpa using scanDisks_run (hostId exK2) [] exD2 [exD3, exU1, exU2]
      (by simp) (by decide)
  have hs3 : scanDisks (hostId exK3) [exD3, exU1, exU2]
      = some ([], corrEntry exD3, [exU1, exU2]) := by
    simpa using scanDisks_run (hostId exK3) [] exD3 [exU1, exU2]
      (by simp) (by decide)
  rw [fix_disk_knots]
  simp only [fdkLoop, hs1, hs2, hs3]
  simp

theorem npClip_nonneg (x : ℚ) : 0 ≤ npClip x 0 1 :=
  le_min (le_max_right x 0) (by norm_num)

theorem npClip_le_one (x : ℚ) : npClip x 0 1 ≤ 1 := min_le_right _ _

/-- C5 (amended): every entry written by `apply_extinction_correction` has
`R_v` at least the floor `0.1`; `A_v` is clamped into `[0, 1]` whenever the
effective `R_v` was below the floor (in particular for pathological inputs
such as `R_v = -5, A_v = 50`), and whenever `R_v` lay in `[0.1, 1)` with
`A_v` above `1`.  A negative `A_v` with `R_v ≥ 0.1` is retained unchanged
(see the counterexample), since the staged cut only flags `corrected` on
the upper `A_v` violation there. -/
theorem extinction_correction_bounds (e : Entry) :
    (1/10 ≤ (corrEntry e).rv)
    ∧ ((if e.extNone then (0 : ℚ) else e.rv) < 1/10 →
        0 ≤ (corrEntry e).av ∧ (corrEntry e).av ≤ 1)
    ∧ (e.extNone = false → 1/10 ≤ e.rv → e.rv < 1 → 1 < e.av →
        0 ≤ (corrEntry e).av ∧ (corrEntry e).av ≤ 1) := by
  unfold corrEntry
  simp only [apply_extinction_correction]
  cases he : e.extNone with
  | true =>
    simp only [if_true]
    rw [if_pos (by norm_num : (0 : ℚ) < 1/10)]
    refine ⟨le_refl _, fun _ => ⟨npClip_nonneg _, npClip_le_one _⟩, ?_⟩
    intro hfalse
    cases hfalse
  | false =>
    simp only [Bool.false_eq_true, if_false]
    by_cases hA : e.rv < 1/10
    · rw [if_pos hA]
      exact ⟨le_refl _, fun _ => ⟨npClip_nonneg _, npClip_le_one _⟩,
        fun _ hge _ _ => absurd hA (not_lt.mpr hge)⟩
    · rw [if_neg hA]
      by_cases hB : e.rv < 1
      · rw [if_pos hB]
        by_cases hC : 1 < e.av
        · rw [if_pos hC]
          exact ⟨not_lt.mp hA, fun hlt => absurd hlt hA,
            fun _ _ _ _ => ⟨npClip_nonneg _, npClip_le_one _⟩⟩
        · rw [if_neg hC]
          exact ⟨not_lt.mp hA, fun hlt => absurd hlt hA,
            fun _ _ _ hav => absurd hav hC⟩
      · rw [if_neg hB]
        exact ⟨not_lt.mp hA, fun hlt => absurd hlt hA,
          fun _ _ hlt1 _ => absurd hlt1 hB⟩

theorem extinction_correction_bounds_witness :
    (0 ≤ (corrEntry (mkEntry 3 50 (-5))).av
      ∧ (corrEntry (mkEntry 3 50 (-5))).av ≤ 1)
    ∧ (0 ≤ (corrEntry (mkEntry 4 5 (1/2))).av
      ∧ (corrEntry (mkEntry 4 5 (1/2))).av ≤ 1)
    ∧ (1/10 : ℚ) ≤ (corrEntry (mkEntry 3 50 (-5))).rv := by
  refine ⟨(extinction_correction_bounds _).2.1 ?_,
    (extinction_correction_bounds _).2.2 ?_ ?_ ?_ ?_,
    (extinction_correction_bounds _).1⟩
  · norm_num [mkEntry]
  · norm_num [mkEntry]
  · norm_num [mkEntry]
  · norm_num [mkEntry]
  · norm_num [mkEntry]

/-- C5 counterexample: the entry with `A_v = -5` and `R_v = 1/2` is written
out unchanged -- its `A_v` stays `-5`, outside `[0, 1]`, even though
`R_v < 1` -- because the `R_v ∈ [0.1, 1)` branch only rewrites the tokens
when `A_v > 1`. -/
theorem negative_av_retained :
    (corrEntry (mkEntry 7 (-5) (1/2))).av = -5
    ∧ (mkEntry 7 (-5) (1/2)).rv < 1
    ∧ (1/10 : ℚ) ≤ (mkEntry 7 (-5) (1/2)).rv
    ∧ (corrEntry (mkEntry 7 (-5) (1/2))).av < 0 := by
  have h : corrEntry (mkEntry 7 (-5) (1/2)) = mkEntry 7 (-5) (1/2) := by
    unfold corrEntry
    simp only [apply_extinction_correction, mkEntry]
    norm_num
  rw [h]
  norm_num [mkEntry]

/-- C10: an AGN row is inserted exactly for the on-detector indices, with
no finiteness condition; an SNe row exactly for the indices that are both
on-detector and finite -- the SNe selection is the AGN selection further
filtered by the finiteness mask, which the AGN path never consults. -/
theorem lc_insertion_criteria {M : Type} (are_on_chip finite_mask : List Bool)
    (uniqueId : List Nat) (obshistid : Nat) (mag : Nat → M) (i : Nat) :
    (i ∈ valid_agn are_on_chip
      ↔ i < are_on_chip.length ∧ are_on_chip.getD i false = true)
    ∧ (i ∈ valid_sn finite_mask are_on_chip
      ↔ i < are_on_chip.length ∧ finite_mask.getD i false = true
          ∧ are_on_chip.getD i false = true)
    ∧ valid_sn finite_mask are_on_chip
      = (valid_agn are_on_chip).filter (fun j => finite_mask.getD j false)
    ∧ sn_lc_rows uniqueId obshistid mag finite_mask are_on_chip
      = ((valid_agn are_on_chip).filter (fun j => finite_mask.getD j false)).map
          (fun j => (uniqueId.getD j 0, obshistid, mag j)) := by
  have hfilter : valid_sn finite_mask are_on_chip
      = (valid_agn are_on_chip).filter (fun j => finite_mask.getD j false) := by
    rw [valid_sn, valid_agn, List.filter_filter]
  refine ⟨?_, ?_, hfilter, ?_⟩
  · simp [valid_agn, List.mem_filter, List.mem_range]
  · simp [valid_sn, List.mem_filter, List.mem_range, and_assoc]
  · rw [sn_lc_rows, hfilter]

/-! Part 5: the numerical facts behind the flux-conserving magnitude split
(claims about lines 157-172 of instance_crawler.py).  `Real.tanh` bounds
and monotonicity are derived from `sinh`/`cosh`. -/

theorem real_tanh_lt_one (x : ℝ) : Real.tanh x < 1 := by
  rw [Real.tanh_eq_sinh_div_cosh]
  exact (div_lt_one (Real.cosh_pos x)).mpr (Real.sinh_lt_cosh x)

theorem real_neg_one_lt_tanh (x : ℝ) : -1 < Real.tanh x := by
  rw [Real.tanh_eq_sinh_div_cosh]
  rw [lt_div_iff₀ (Real.cosh_pos x)]
  have h := Real.sinh_lt_cosh (-x)
  rw [Real.sinh_neg, Real.cosh_neg] at h
  linarith

theorem real_tanh_monotone (x y : ℝ) (hxy : x ≤ y) :
    Real.tanh x ≤ Real.tanh y := by
  rw [Real.tanh_eq_sinh_div_cosh, Real.tanh_eq_sinh_div_cosh]
  rw [div_le_div_iff₀ (Real.cosh_pos x) (Real.cosh_pos y)]
  have h1 : 0 ≤ Real.sinh (y - x) := Real.sinh_nonneg_iff.mpr (by linarith)
  have h2 := Real.sinh_sub y x
  nlinarith [h1, h2]

theorem sizeDamping_pos (s : ℝ) : 0 < sizeDamping s := by
  have := real_tanh_lt_one (Real.log (s / 1.5))
  unfold sizeDamping
  linarith

theorem sizeDamping_lt_one (s : ℝ) : sizeDamping s < 1 := by
  have := real_neg_one_lt_tanh (Real.log (s / 1.5))
  unfold sizeDamping
  linarith

theorem total_flux_pos (md mk : ℝ) : 0 < total_flux md mk :=
  add_pos (Real.rpow_pos_of_pos (by norm_num) _)
    (Real.rpow_pos_of_pos (by norm_num) _)

theorem knotsFluxFrac0_pos (md mk : ℝ) : 0 < knotsFluxFrac0 md mk :=
  div_pos (Real.rpow_pos_of_pos (by norm_num) _) (total_flux_pos md mk)

theorem knotsFluxFrac0_lt_one (md mk : ℝ) : knotsFluxFrac0 md mk < 1 := by
  unfold knotsFluxFrac0
  rw [div_lt_one (total_flux_pos md mk)]
  unfold total_flux
  have := Real.rpow_pos_of_pos (show (0:ℝ) < 10 by norm_num) (-md / 2.5)
  linarith

theorem knotsFluxFrac_pos (md mk s : ℝ) : 0 < knotsFluxFrac md mk s :=
  mul_pos (knotsFluxFrac0_pos md mk) (sizeDamping_pos s)

theorem knotsFluxFrac_lt_one (md mk s : ℝ) : knotsFluxFrac md mk s < 1 := by
  unfold knotsFluxFrac
  nlinarith [knotsFluxFrac0_pos md mk, knotsFluxFrac0_lt_one md mk,
    sizeDamping_pos s, sizeDamping_lt_one s]

theorem log_ten_lt : Real.log 10 < 2.4 := by
  rw [Real.log_lt_iff_lt_exp (by norm_num)]
  have h1 : (1.075 : ℝ) ≤ Real.exp 0.075 := by
    have := Real.add_one_le_exp (0.075 : ℝ)
    linarith
  have h2 : (1.075 : ℝ) ^ (32 : ℕ) ≤ Real.exp 0.075 ^ (32 : ℕ) :=
    pow_le_pow_left₀ (by norm_num) h1 32
  have h3 : Real.exp 0.075 ^ (32 : ℕ) = Real.exp 2.4 := by
    rw [← Real.exp_nat_mul]
    norm_num
  have h4 : (10 : ℝ) < (1.075 : ℝ) ^ (32 : ℕ) := by norm_num
  calc (10 : ℝ) < (1.075 : ℝ) ^ (32 : ℕ) := h4
  _ ≤ Real.exp 0.075 ^ (32 : ℕ) := h2
  _ = Real.exp 2.4 := h3

theorem abs_exp_sub_one_le (x : ℝ) (hx : |x| ≤ 1/2) :
    |Real.exp x - 1| ≤ 2 * |x| := by
  have hnegabs : -|x| ≤ x := neg_abs_le x
  have habs : x ≤ |x| := le_abs_self x
  have h0 : (0 : ℝ) ≤ |x| := abs_nonneg x
  have hlow : x + 1 ≤ Real.exp x := Real.add_one_le_exp x
  rw [abs_le]
  constructor
  · linarith
  · rcases le_or_lt x 0 with hneg | hpos
    · have : Real.exp x ≤ Real.exp 0 := Real.exp_le_exp.mpr hneg
      rw [Real.exp_zero] at this
      linarith
    · have hxhalf : x ≤ 1/2 := le_trans habs hx
      have hexp_pos := Real.exp_pos x
      have hneg1 := Real.add_one_le_exp (-x)
      rw [Real.exp_neg] at hneg1
      have hmain : Real.exp x * (1 - x) ≤ 1 := by
        calc Real.exp x * (1 - x) ≤ Real.exp x * (Real.exp x)⁻¹ :=
          mul_le_mul_of_nonneg_left (by linarith) hexp_pos.le
        _ = 1 := mul_inv_cancel₀ hexp_pos.ne'
      have h12 : (1:ℝ)/2 ≤ 1 - x := by linarith
      have hhalfexp : Real.exp x * (1/2) ≤ Real.exp x * (1 - x) :=
        mul_le_mul_of_nonneg_left h12 hexp_pos.le
      have hexp2 : Real.exp x ≤ 2 := by linarith
      have hprod : x * Real.exp x ≤ x * 2 :=
        mul_le_mul_of_nonneg_left hexp2 hpos.le
      have hexpand : Real.exp x - x * Real.exp x ≤ 1 := by nlinarith [hmain]
      have : x = |x| := (abs_of_pos hpos).symm
      linarith

/-- A perturbation of at most `1e-9` on a magnitude norm changes the
corresponding flux by a relative factor within `1e-6` of one. -/
theorem rpow_pert_near_one (δ : ℝ) (hδ : |δ| ≤ 1e-9) :
    |(10:ℝ) ^ (-δ / 2.5) - 1| ≤ 1e-6 := by
  have h10 : (0:ℝ) < 10 := by norm_num
  rw [Real.rpow_def_of_pos h10]
  have hlogpos : 0 < Real.log 10 := Real.log_pos (by norm_num)
  have hxbound : |Real.log 10 * (-δ / 2.5)| ≤ 1e-9 := by
    rw [abs_mul, abs_div, abs_neg]
    rw [abs_of_pos hlogpos, abs_of_pos (show (0:ℝ) < 2.5 by norm_num)]
    have hdiv : |δ| / 2.5 ≤ 1e-9 / 2.5 :=
      div_le_div_of_nonneg_right hδ (by norm_num)
    have h1 : Real.log 10 * (|δ| / 2.5) ≤ 2.4 * (1e-9 / 2.5) :=
      mul_le_mul log_ten_lt.le hdiv (by positivity) (by norm_num)
    calc Real.log 10 * (|δ| / 2.5) ≤ 2.4 * (1e-9 / 2.5) := h1
    _ ≤ 1e-9 := by norm_num
  have hhalf : |Real.log 10 * (-δ / 2.5)| ≤ 1/2 :=
    le_trans hxbound (by norm_num)
  have := abs_exp_sub_one_le (Real.log 10 * (-δ / 2.5)) hhalf
  calc |Real.exp (Real.log 10 * (-δ / 2.5)) - 1|
      ≤ 2 * |Real.log 10 * (-δ / 2.5)| := this
  _ ≤ 2 * 1e-9 := by linarith
  _ ≤ 1e-6 := by norm_num

/-- `10**(-(-2.5*log10(A))/2.5) = A`: writing a magnitude norm and turning
it back into a flux recovers the flux exactly (in exact arithmetic). -/
theorem rpow_of_neg_mul_logb (A : ℝ) (hA : 0 < A) :
    (10:ℝ) ^ (-(-2.5 * Real.logb 10 A) / 2.5) = A := by
  have h : -(-2.5 * Real.logb 10 A) / 2.5 = Real.logb 10 A := by ring
  rw [h]
  exact Real.rpow_logb (by norm_num) (by norm_num) hA

theorem rpow_split_pert (v δ : ℝ) :
    (10:ℝ) ^ (-(v + δ) / 2.5) = (10:ℝ) ^ (-v / 2.5) * (10:ℝ) ^ (-δ / 2.5) := by
  rw [← Real.rpow_add (by norm_num : (0:ℝ) < 10)]
  congr 1
  ring

/-- C3: for every matched knots/disk pair, the total flux recomputed from
the written magnitude norms -- the exact recomputed values `new_magnorm_*`
perturbed by the `"%.9f"` token formatting, modelled by any `δ` with
`|δ| ≤ 1e-9` -- agrees with the pre-split total flux within `1e-6`
relative tolerance. -/
theorem flux_conservation (md mk size δ1 δ2 : ℝ) (_hsize : 0 < size)
    (h1 : |δ1| ≤ 1e-9) (h2 : |δ2| ≤ 1e-9) :
    |total_flux (new_magnorm_disk md mk size + δ1)
        (new_magnorm_knots md mk size + δ2)
      - total_flux md mk| ≤ 1e-6 * total_flux md mk := by
  have hT : 0 < total_flux md mk := total_flux_pos md mk
  have hr0 : 0 < knotsFluxFrac md mk size := knotsFluxFrac_pos md mk size
  have hr1 : knotsFluxFrac md mk size < 1 := knotsFluxFrac_lt_one md mk size
  have hX1 : 0 < (1 - knotsFluxFrac md mk size) * total_flux md mk :=
    mul_pos (by linarith) hT
  have hX2 : 0 < knotsFluxFrac md mk size * total_flux md mk :=
    mul_pos hr0 hT
  have hd : (10:ℝ) ^ (-(new_magnorm_disk md mk size + δ1) / 2.5)
      = (1 - knotsFluxFrac md mk size) * total_flux md mk
          * (10:ℝ) ^ (-δ1 / 2.5) := by
    rw [rpow_split_pert]
    rw [new_magnorm_disk, rpow_of_neg_mul_logb _ hX1]
  have hk : (10:ℝ) ^ (-(new_magnorm_knots md mk size + δ2) / 2.5)
      = knotsFluxFrac md mk size * total_flux md mk
          * (10:ℝ) ^ (-δ2 / 2.5) := by
    rw [rpow_split_pert]
    rw [new_magnorm_knots, rpow_of_neg_mul_logb _ hX2]
  have hA := rpow_pert_near_one δ1 h1
  have hB := rpow_pert_near_one δ2 h2
  have key : total_flux (new_magnorm_disk md mk size + δ1)
        (new_magnorm_knots md mk size + δ2)
      - total_flux md mk
      = (1 - knotsFluxFrac md mk size) * total_flux md mk
          * ((10:ℝ) ^ (-δ1 / 2.5) - 1)
        + knotsFluxFrac md mk size * total_flux md mk
          * ((10:ℝ) ^ (-δ2 / 2.5) - 1) := by
    rw [show total_flux (new_magnorm_disk md mk size + δ1)
        (new_magnorm_knots md mk size + δ2)
      = (10:ℝ) ^ (-(new_magnorm_disk md mk size + δ1) / 2.5)
        + (10:ℝ) ^ (-(new_magnorm_knots md mk size + δ2) / 2.5) from rfl]
    rw [hd, hk]
    ring
  rw [key]
  calc |(1 - knotsFluxFrac md mk size) * total_flux md mk
          * ((10:ℝ) ^ (-δ1 / 2.5) - 1)
        + knotsFluxFrac md mk size * total_flux md mk
          * ((10:ℝ) ^ (-δ2 / 2.5) - 1)|
      ≤ |(1 - knotsFluxFrac md mk size) * total_flux md mk
          * ((10:ℝ) ^ (-δ1 / 2.5) - 1)|
        + |knotsFluxFrac md mk size * total_flux md mk
          * ((10:ℝ) ^ (-δ2 / 2.5) - 1)| := abs_add _ _
  _ = (1 - knotsFluxFrac md mk size) * total_flux md mk
        * |(10:ℝ) ^ (-δ1 / 2.5) - 1|
      + knotsFluxFrac md mk size * total_flux md mk
        * |(10:ℝ) ^ (-δ2 / 2.5) - 1| := by
      simp only [abs_mul, abs_of_pos hT, abs_of_pos hr0,
        abs_of_pos (show (0:ℝ) < 1 - knotsFluxFrac md mk size by linarith)]
  _ ≤ (1 - knotsFluxFrac md mk size) * total_flux md mk * 1e-6
      + knotsFluxFrac md mk size * total_flux md mk * 1e-6 := by
      apply add_le_add
      · exact mul_le_mul_of_nonneg_left hA hX1.le
      · exact mul_le_mul_of_nonneg_left hB hX2.le
  _ = 1e-6 * total_flux md mk := by ring

theorem flux_conservation_witness :
    |total_flux (new_magnorm_disk 0 0 1.5 + 0) (new_magnorm_knots 0 0 1.5 + 0)
      - total_flux 0 0| ≤ 1e-6 * total_flux 0 0 :=
  flux_conservation 0 0 1.5 0 0 (by norm_num) (by norm_num) (by norm_num)

/-- C7: with all other inputs equal, the damped knots flux fraction is a
non-increasing function of the size parameter: for `0 < s1 ≤ s2` the
fraction at `s1` is at least the fraction at `s2`. -/
theorem knots_fraction_antitone (md mk s1 s2 : ℝ) (h0 : 0 < s1)
    (h12 : s1 ≤ s2) : knotsFluxFrac md mk s2 ≤ knotsFluxFrac md mk s1 := by
  unfold knotsFluxFrac
  apply mul_le_mul_of_nonneg_left ?_ (knotsFluxFrac0_pos md mk).le
  unfold sizeDamping
  have hlog : Real.log (s1 / 1.5) ≤ Real.log (s2 / 1.5) := by
    have hpos : 0 < s1 / 1.5 := by positivity
    have hle : s1 / 1.5 ≤ s2 / 1.5 := div_le_div_of_nonneg_right h12 (by norm_num)
    exact (Real.log_le_log_iff hpos (by linarith)).mpr hle
  have := real_tanh_monotone _ _ hlog
  linarith

theorem knots_fraction_antitone_witness :
    knotsFluxFrac 0 0 2 ≤ knotsFluxFrac 0 0 1 :=
  knots_fraction_antitone 0 0 1 2 (by norm_num) (by norm_num)
